import Mathlib

/-!
Shallow embedding of the `vekta_embeddings` command-line tools
(`src/text_embed.rs`, `src/rerank.rs`, `src/utils.rs`) together with
proofs about the specification's claims.

Modelling conventions:
* Rust string content is modelled as a list of characters (`Str`);
  Rust's `char::is_whitespace` is modelled by `Char.isWhitespace`
  (the ASCII whitespace fragment, which is the one exercised here).
* The file system is an association list from paths to file contents.
* `usize` arithmetic uses `Nat`; the one place where a subtraction can
  underflow (`end_line - start_line`) is modelled explicitly as a panic
  (debug overflow check), see `get_full_content` and `getFileMetadata`.
* Fallible computations return an `Outcome`, distinguishing an
  `anyhow`-propagated error from a panic.
-/

/-- Character-list model of Rust string content. -/
abbrev Str := List Char

namespace Vekta

/-- Splits a character list at every occurrence of the character `sep`,
keeping all the (possibly empty) segments between separators; there is
always at least one segment. -/
def splitOnChar (sep : Char) : Str → List Str
  | [] => [[]]
  | c :: cs =>
    if c = sep then [] :: splitOnChar sep cs
    else
      match splitOnChar sep cs with
      | [] => [[c]]
      | l :: ls => (c :: l) :: ls

/-- Splits a character list at every whitespace character, keeping the
(possibly empty) segments between consecutive whitespace characters.
Helper for the model of Rust `str::split_whitespace`. -/
def splitWsAll : Str → List Str
  | [] => [[]]
  | c :: cs =>
    if c.isWhitespace then [] :: splitWsAll cs
    else
      match splitWsAll cs with
      | [] => [[c]]
      | w :: ws => (c :: w) :: ws

/-- Model of Rust `str::split_whitespace` (collected to a vector): the
maximal whitespace-free nonempty segments, in order. -/
def splitWhitespaceL (s : Str) : List Str :=
  (splitWsAll s).filter (fun w => !w.isEmpty)

/-- Model of Rust `[&str]::join(sep)`. -/
def joinSep (sep : Str) : List Str → Str
  | [] => []
  | [w] => w
  | w :: ws => w ++ sep ++ joinSep sep ws

/-- Removes one trailing carriage return, if present. -/
def stripCr (l : Str) : Str :=
  if l.getLast? = some '\r' then l.dropLast else l

/-- Given the newline-separated segments of a string, rebuilds the lines
in the sense of Rust `str::lines`: every segment but the last one was
newline-terminated, so a trailing carriage return is stripped from it; a
final empty segment (i.e. a trailing newline) contributes no line. -/
def rstripSegs : List Str → List Str
  | [] => []
  | [l] => if l.isEmpty then [] else [l]
  | l :: ls => stripCr l :: rstripSegs ls

/-- Model of Rust `str::lines` (collected to a vector). -/
def linesL (s : Str) : List Str :=
  rstripSegs (splitOnChar '\n' s)

/-- Fuel-indexed model of Rust `slice::chunks`: the fuel only serves to
make the recursion structural, `chunksOf` instantiates it adequately. -/
def chunksOfFuel (c : Nat) : Nat → List α → List (List α)
  | 0, _ => []
  | _, [] => []
  | fuel + 1, xs => xs.take c :: chunksOfFuel c fuel (xs.drop c)

/-- Model of Rust `slice::chunks(c)` (collected): consecutive groups of
`c` elements, the last group possibly shorter.  Rust panics on `c = 0`;
that case is modelled as the empty list and never used. -/
def chunksOf (c : Nat) (xs : List α) : List (List α) :=
  chunksOfFuel c xs.length xs

/-- Model of `split_into_chunks` (src/text_embed.rs, lines 145-151). -/
def split_into_chunks (text : Str) (chunk_size : Nat) : List Str :=
  (chunksOf chunk_size (splitWhitespaceL text)).map (joinSep [' '])

/-- Number of whitespace-separated words on one line
(`line.split_whitespace().count()` in src/text_embed.rs, line 129). -/
def lineWordCount (l : Str) : Nat := (splitWhitespaceL l).length

/-- The loop of `get_line_range` (src/text_embed.rs, lines 128-140),
with the mutable state passed explicitly: remaining lines, then
`line_count`, `word_count`, `start_line`, `end_line`. -/
def getLineRangeLoop (sw ew : Nat) : List Str → Nat → Nat → Nat → Nat → Nat × Nat
  | [], _, _, sl, el => (sl, el + 1)
  | line :: rest, lc, wc, sl, el =>
    let sl' := if wc < sw then lc else sl
    if wc < ew then
      getLineRangeLoop sw ew rest (lc + 1) (wc + lineWordCount line) sl' lc
    else
      (sl', el + 1)

/-- Model of `get_line_range` (src/text_embed.rs, lines 119-143). -/
def get_line_range (content : Str) (chunk_index chunk_size : Nat) : Nat × Nat :=
  getLineRangeLoop (chunk_index * chunk_size) ((chunk_index + 1) * chunk_size)
    (linesL content) 0 0 0 0

/-- Closed form of one component of the `get_line_range` loop: the last
line index at which the running word count was still below `bound`
(`0` if there is no such line), starting from line index `lc`, running
word count `wc` and current value `cur`. -/
def lastBelow (bound : Nat) : List Str → Nat → Nat → Nat → Nat
  | [], _, _, cur => cur
  | line :: rest, lc, wc, cur =>
    if wc < bound then lastBelow bound rest (lc + 1) (wc + lineWordCount line) lc
    else cur

mutual

/-- Model of a parsed `serde_json::Value`.  Numbers are modelled as
integers: the claims only exercise the integer fragment (`as_u64`), and
a JSON number that is not a `u64` simply makes `asU64` fail, exactly as
for a float or out-of-range value. -/
inductive Json where
  | null : Json
  | bool : Bool → Json
  | num : Int → Json
  | str : String → Json
  | arr : JsonList → Json
  | obj : JsonFields → Json
deriving DecidableEq, Repr

/-- Elements of a JSON array. -/
inductive JsonList where
  | nil : JsonList
  | cons : Json → JsonList → JsonList
deriving DecidableEq, Repr

/-- The ordered key-value bindings of a JSON object. -/
inductive JsonFields where
  | nil : JsonFields
  | cons : String → Json → JsonFields → JsonFields
deriving DecidableEq, Repr

end

/-- Lookup of a key in a JSON object (model of `Map::get`). -/
def jfLookup (k : String) : JsonFields → Option Json
  | .nil => none
  | .cons k0 v rest => if k0 = k then some v else jfLookup k rest

/-- The keys of a JSON object, in order. -/
def jfKeys : JsonFields → List String
  | .nil => []
  | .cons k _ rest => k :: jfKeys rest

/-- Lookup in an association list (used for the file-system model). -/
def assocLookup {α : Type} (k : String) : List (String × α) → Option α
  | [] => none
  | (k0, v) :: rest => if k0 = k then some v else assocLookup k rest

/-- Model of `serde_json::Value`'s `Index<&str>`: returns `Null` when
the value is not an object or the key is absent. -/
def jindex (v : Json) (k : String) : Json :=
  match v with
  | .obj fields => (jfLookup k fields).getD .null
  | _ => .null

/-- Model of `Value::as_object`. -/
def asObject : Json → Option JsonFields
  | .obj fields => some fields
  | _ => none

/-- Model of `Value::as_str`. -/
def asStr : Json → Option String
  | .str s => some s
  | _ => none

/-- Model of `Value::as_u64`: succeeds exactly on integers in `u64`
range. -/
def asU64 : Json → Option Nat
  | .num n => if 0 ≤ n ∧ n < 2 ^ 64 then some n.toNat else none
  | _ => none

/-- Outcome of a fallible Rust computation: `ok`, an `anyhow`-propagated
error (with its context message), or a panic. -/
inductive Outcome (α : Type) where
  | ok : α → Outcome α
  | error : String → Outcome α
  | panicked : Outcome α
deriving DecidableEq, Repr

/-- Whether an outcome is a success. -/
def isOkB : Outcome α → Bool
  | .ok _ => true
  | _ => false

/-- Whether an outcome is an `anyhow`-propagated error (as opposed to a
success or a panic). -/
def isPropagatedErrB : Outcome α → Bool
  | .error _ => true
  | _ => false

/-- The file system, as a map from paths to file contents. -/
abbrev Fs := List (String × Str)

/-- Model of `get_full_content` (src/rerank.rs, lines 57-76).
`metadata[key]` in the source indexes a `serde_json::Map`, which panics
when the key is absent; a present key of the wrong type makes the
`as_str`/`as_u64` conversion fail and propagates a context error.  The
`usize` subtraction `end_line - start_line` panics (debug overflow
check) when `end_line < start_line`. -/
def get_full_content (fs : Fs) (item : Json) : Outcome Str :=
  match asObject (jindex item "metadata") with
  | none => .error "Missing metadata"
  | some metadata =>
    match jfLookup "file_path" metadata with
    | none => .panicked
    | some fpv =>
      match asStr fpv with
      | none => .error "Missing file_path"
      | some file_path =>
        match jfLookup "start_line" metadata with
        | none => .panicked
        | some slv =>
          match asU64 slv with
          | none => .error "Missing start_line"
          | some start_line =>
            match jfLookup "end_line" metadata with
            | none => .panicked
            | some elv =>
              match asU64 elv with
              | none => .error "Missing end_line"
              | some end_line =>
                match assocLookup file_path fs with
                | none => .error ("Failed to read file: " ++ file_path)
                | some content =>
                  if end_line < start_line then .panicked
                  else
                    .ok (joinSep ['\n']
                      (((linesL content).drop start_line).take (end_line - start_line)))

/-- Model of collecting `input.iter().map(get_full_content)` into a
`Result<Vec<String>>` (src/rerank.rs, lines 35-38): the first failing
record decides the outcome. -/
def collectDocs (fs : Fs) : List Json → Outcome (List Str)
  | [] => .ok []
  | item :: rest =>
    match get_full_content fs item with
    | .ok d =>
      match collectDocs fs rest with
      | .ok ds => .ok (d :: ds)
      | .error e => .error e
      | .panicked => .panicked
    | .error e => .error e
    | .panicked => .panicked

/-- Object update: replaces the value at the key if present, appends
the binding otherwise (model of inserting into a JSON object). -/
def jfUpdate : JsonFields → String → Json → JsonFields
  | .nil, k, v => .cons k v .nil
  | .cons k0 v0 rest, k, v =>
    if k0 = k then .cons k0 v rest else .cons k0 v0 (jfUpdate rest k v)

/-- Model of one emission step of the rerank output loop
(src/rerank.rs, lines 47-51): `item["rerank_score"] = json!(score)` on
an object record. -/
def emitRecord (fields : JsonFields) (score : Json) : Json :=
  .obj (jfUpdate fields "rerank_score" score)

/-- Model of the rerank output loop (src/rerank.rs, lines 47-51), given
the reranker's results as `(index, score)` pairs: clones
`input[result.index]`, sets `rerank_score` and writes the record.
Indexing out of bounds, or index-assignment on a record that is neither
an object nor `Null`, panics; `Null` records are promoted to objects by
`serde_json`'s `IndexMut`. -/
def emitAll (input : List Json) : List (Nat × Json) → Outcome Unit × List Json
  | [] => (.ok (), [])
  | (i, score) :: rest =>
    match input.get? i with
    | none => (.panicked, [])
    | some item =>
      match item with
      | .obj fields =>
        let r := emitAll input rest
        (r.1, emitRecord fields score :: r.2)
      | .null =>
        let r := emitAll input rest
        (r.1, Json.obj (.cons "rerank_score" score .nil) :: r.2)
      | _ => (.panicked, [])

/-- Model of the processing part of `main` in src/rerank.rs (lines
29-51), after stdin has been parsed into JSON records: resolve every
record's document, rerank (the model call is the opaque collaborator
`rr`, assumed to succeed), then emit the scored records.  Returns the
run's outcome together with the list of JSON lines written to stdout. -/
def rerankMain (fs : Fs) (rr : List Str → List (Nat × Json))
    (input : List Json) : Outcome Unit × List Json :=
  match collectDocs fs input with
  | .error e => (.error e, [])
  | .panicked => (.panicked, [])
  | .ok docs => emitAll input (rr docs)

/-- Approximation of Rust `Path::file_name().unwrap_or_default()`: the
final '/'-separated component of the path.  (`Path::file_name` differs
only on paths ending in `/`, `.` or `..`, which the claims never
exercise.) -/
def fileNameOf (p : Str) : Str :=
  ((splitOnChar '/' p).getLast?).getD []

/-- The metadata record built by `get_file_metadata`
(src/text_embed.rs, lines 77-86). -/
structure FileMetadata where
  label : Str
  file_path : String
  file_name : Str
  chunk_index : Nat
  start_line : Nat
  end_line : Nat
  content_preview : Str
deriving DecidableEq, Repr

/-- Model of `get_file_metadata` (src/text_embed.rs, lines 88-117).
An unreadable file degrades to empty content (`unwrap_or_default`); the
`usize` subtraction `end_line - start_line` panics (debug overflow
check) when `end_line < start_line`, modelled as `none`. -/
def getFileMetadata (fs : Fs) (path : String) (chunk_index start_line end_line : Nat) :
    Option FileMetadata :=
  let file_name := fileNameOf path.data
  let content := (assocLookup path fs).getD []
  if end_line < start_line then none
  else
    let content_preview :=
      joinSep ['\n'] (((linesL content).drop start_line).take (end_line - start_line))
    some
      { label := file_name ++ '_' :: 'p' :: 'a' :: 'r' :: 't' :: Nat.toDigits 10 chunk_index
        file_path := path
        file_name := file_name
        chunk_index := chunk_index
        start_line := start_line
        end_line := end_line
        content_preview := content_preview.take 100 ++ ['.', '.', '.'] }

/-- Model of the decision made by `detect_system_resources`
(src/utils.rs, lines 4-33), as a function of the host's total memory in
bytes and its physical core count; the core count is only logged and
does not enter the decision. -/
def detect_system_resources (total_memory : Nat) (_cpu_count : Nat) : Nat :=
  if total_memory < 4 * 1024 * 1024 * 1024 then 1
  else if total_memory < 8 * 1024 * 1024 * 1024 then 4
  else if total_memory < 16 * 1024 * 1024 * 1024 then 8
  else 16

/-- Specification-side formalisation of "the elements with indices in
the half-open interval [s, e)": filter the index-annotated list by the
interval and forget the indices. -/
def idxSlice {α : Type} (l : List α) (s e : Nat) : List α :=
  ((l.enum).filter (fun p => decide (s ≤ p.1 ∧ p.1 < e))).map Prod.snd

/-- A rerank input record whose metadata holds exactly a file path and
a `[start_line, end_line)` range, as produced by the text-embedding
pipeline. -/
def mkRecord (fp : String) (s e : Nat) : Json :=
  .obj (.cons "metadata"
    (.obj (.cons "file_path" (.str fp)
      (.cons "start_line" (.num s)
        (.cons "end_line" (.num e) .nil)))) .nil)

/-! ### Properties of the whitespace splitter -/

theorem splitWsAll_ne_nil (s : Str) : splitWsAll s ≠ [] := by
  induction s with
  | nil => simp [splitWsAll]
  | cons c cs ih =>
    simp only [splitWsAll]
    split
    · simp
    · split
      · simp
      · simp

theorem mem_splitWsAll_not_ws (s : Str) :
    ∀ w ∈ splitWsAll s, ∀ c ∈ w, c.isWhitespace = false := by
  induction s with
  | nil =>
    intro w hw c hc
    simp only [splitWsAll, List.mem_singleton] at hw
    subst hw
    simp at hc
  | cons a as ih =>
    intro w hw c hc
    simp only [splitWsAll] at hw
    by_cases ha : a.isWhitespace
    · rw [if_pos ha] at hw
      rcases List.mem_cons.mp hw with h | h
      · subst h; simp at hc
      · exact ih w h c hc
    · rw [if_neg ha] at hw
      cases hsp : splitWsAll as with
      | nil => exact absurd hsp (splitWsAll_ne_nil as)
      | cons w0 ws0 =>
        rw [hsp] at hw
        rcases List.mem_cons.mp hw with h | h
        · subst h
          rcases List.mem_cons.mp hc with h1 | h1
          · subst h1
            simpa using ha
          · exact ih w0 (by rw [hsp]; exact List.mem_cons_self _ _) c h1
        · exact ih w (by rw [hsp]; exact List.mem_cons_of_mem _ h) c hc

theorem mem_splitWhitespaceL (s : Str) :
    ∀ w ∈ splitWhitespaceL s, w ≠ [] ∧ ∀ c ∈ w, c.isWhitespace = false := by
  intro w hw
  simp only [splitWhitespaceL, List.mem_filter] at hw
  refine ⟨by simpa using hw.2, mem_splitWsAll_not_ws s w hw.1⟩

theorem splitWsAll_append (x : Str) (hx : ∀ c ∈ x, c.isWhitespace = false)
    (r : Str) (h : Str) (t : List Str) (hr : splitWsAll r = h :: t) :
    splitWsAll (x ++ r) = (x ++ h) :: t := by
  induction x with
  | nil => simpa using hr
  | cons a as ih =>
    have ha : a.isWhitespace = false := hx a (List.mem_cons_self _ _)
    have ih' := ih (fun c hc => hx c (List.mem_cons_of_mem _ hc))
    simp only [List.cons_append, splitWsAll, ha, Bool.false_eq_true, if_false]
    rw [show as.append r = as ++ r from rfl, ih']

theorem splitWhitespaceL_joinSep (g : List Str)
    (hg : ∀ w ∈ g, w ≠ [] ∧ ∀ c ∈ w, c.isWhitespace = false) :
    splitWhitespaceL (joinSep [' '] g) = g := by
  induction g with
  | nil => rfl
  | cons x g' ih =>
    obtain ⟨hx0, hxw⟩ := hg x (List.mem_cons_self _ _)
    cases g' with
    | nil =>
      have hsp : splitWsAll x = [x] := by
        have h := splitWsAll_append x hxw [] [] [] rfl
        simpa using h
      have hxe : x.isEmpty = false := by
        cases x with
        | nil => exact absurd rfl hx0
        | cons _ _ => rfl
      simp [joinSep, splitWhitespaceL, hsp, List.filter_cons, hxe]
    | cons y g'' =>
      have hrest := ih (fun w hw => hg w (List.mem_cons_of_mem _ hw))
      have hsp2 : splitWsAll (' ' :: joinSep [' '] (y :: g''))
          = [] :: splitWsAll (joinSep [' '] (y :: g'')) := by
        simp [splitWsAll]
      have hsp : splitWsAll (x ++ ' ' :: joinSep [' '] (y :: g''))
          = (x ++ []) :: splitWsAll (joinSep [' '] (y :: g'')) :=
        splitWsAll_append x hxw _ _ _ hsp2
      simp only [List.append_nil] at hsp
      have hj : joinSep [' '] (x :: y :: g'')
          = x ++ ' ' :: joinSep [' '] (y :: g'') := by
        simp [joinSep]
      rw [hj]
      simp only [splitWhitespaceL, hsp, List.filter]
      rw [show (!x.isEmpty) = true by simp [List.isEmpty_iff, hx0]]
      simp only [splitWhitespaceL] at hrest
      rw [hrest]

/-! ### Properties of the chunker -/

theorem chunksOfFuel_nil (c fuel : Nat) : chunksOfFuel c fuel ([] : List α) = [] := by
  cases fuel <;> rfl

theorem chunksOfFuel_congr (c : Nat) (hc : c ≠ 0) :
    ∀ (f1 f2 : Nat) (xs : List α), xs.length ≤ f1 → xs.length ≤ f2 →
      chunksOfFuel c f1 xs = chunksOfFuel c f2 xs := by
  intro f1
  induction f1 with
  | zero =>
    intro f2 xs h1 _
    have : xs = [] := by
      cases xs with
      | nil => rfl
      | cons a as => simp at h1
    subst this
    rw [chunksOfFuel_nil, chunksOfFuel_nil]
  | succ f ih =>
    intro f2 xs h1 h2
    cases xs with
    | nil => rw [chunksOfFuel_nil, chunksOfFuel_nil]
    | cons a as =>
      cases f2 with
      | zero => simp at h2
      | succ f2' =>
        simp only [chunksOfFuel]
        congr 1
        have hd : (List.drop c (a :: as)).length = (a :: as).length - c :=
          List.length_drop _ _
        apply ih
        · rw [hd]; simp only [List.length_cons] at h1 ⊢; omega
        · rw [hd]; simp only [List.length_cons] at h2 ⊢; omega

theorem chunksOf_cons (c : Nat) (hc : c ≠ 0) (xs : List α) (hxs : xs ≠ []) :
    chunksOf c xs = xs.take c :: chunksOf c (xs.drop c) := by
  cases xs with
  | nil => exact absurd rfl hxs
  | cons a as =>
    show chunksOfFuel c (as.length + 1) (a :: as) = _
    simp only [chunksOfFuel]
    congr 1
    apply chunksOfFuel_congr c hc
    · rw [List.length_drop]; simp only [List.length_cons]; omega
    · exact Nat.le_refl _

theorem chunksOf_flatten_aux (c : Nat) (hc : c ≠ 0) :
    ∀ (n : Nat) (xs : List α), xs.length ≤ n → (chunksOf c xs).flatten = xs := by
  intro n
  induction n with
  | zero =>
    intro xs h
    have : xs = [] := by
      cases xs with
      | nil => rfl
      | cons a as => simp at h
    subst this
    rfl
  | succ n ih =>
    intro xs h
    cases xs with
    | nil => rfl
    | cons a as =>
      rw [chunksOf_cons c hc _ (by simp), List.flatten_cons]
      rw [ih _ (by rw [List.length_drop]; simp only [List.length_cons] at h ⊢; omega)]
      exact List.take_append_drop c (a :: as)

theorem chunksOf_flatten (c : Nat) (hc : c ≠ 0) (xs : List α) :
    (chunksOf c xs).flatten = xs :=
  chunksOf_flatten_aux c hc xs.length xs (Nat.le_refl _)

theorem chunksOf_length_aux (c : Nat) (hc : c ≠ 0) :
    ∀ (n : Nat) (xs : List α), xs.length ≤ n →
      (chunksOf c xs).length = (xs.length + c - 1) / c := by
  intro n
  induction n with
  | zero =>
    intro xs h
    have hx : xs = [] := by
      cases xs with
      | nil => rfl
      | cons a as => simp at h
    subst hx
    show (0 : Nat) = (0 + c - 1) / c
    rw [Nat.zero_add, Nat.div_eq_of_lt (by omega)]
  | succ n ih =>
    intro xs h
    cases xs with
    | nil =>
      show (0 : Nat) = (0 + c - 1) / c
      rw [Nat.zero_add, Nat.div_eq_of_lt (by omega)]
    | cons a as =>
      rw [chunksOf_cons c hc _ (by simp), List.length_cons]
      rw [ih _ (by rw [List.length_drop]; simp only [List.length_cons] at h ⊢; omega)]
      rw [List.length_drop]
      have hL : 1 ≤ (a :: as).length := by simp
      set L := (a :: as).length with hLdef
      have h1 : L + c - 1 = (L - 1) + c := by omega
      rw [h1, Nat.add_div_right _ (Nat.pos_of_ne_zero hc)]
      by_cases hcL : c ≤ L
      · have h2 : L - c + c - 1 = L - 1 := by omega
        rw [h2]
      · have h2 : L - c + c - 1 = c - 1 := by omega
        rw [h2, Nat.div_eq_of_lt (by omega), Nat.div_eq_of_lt (by omega)]

theorem chunksOf_length (c : Nat) (hc : c ≠ 0) (xs : List α) :
    (chunksOf c xs).length = (xs.length + c - 1) / c :=
  chunksOf_length_aux c hc xs.length xs (Nat.le_refl _)

theorem chunksOf_dropLast_aux (c : Nat) (hc : c ≠ 0) :
    ∀ (n : Nat) (xs : List α), xs.length ≤ n →
      ∀ g ∈ (chunksOf c xs).dropLast, g.length = c := by
  intro n
  induction n with
  | zero =>
    intro xs h g hg
    have hx : xs = [] := by
      cases xs with
      | nil => rfl
      | cons a as => simp at h
    subst hx
    simp [chunksOf, chunksOfFuel_nil] at hg
  | succ n ih =>
    intro xs h g hg
    cases xs with
    | nil => simp [chunksOf, chunksOfFuel_nil] at hg
    | cons a as =>
      rw [chunksOf_cons c hc _ (by simp)] at hg
      cases hrec : chunksOf c (List.drop c (a :: as)) with
      | nil => rw [hrec] at hg; simp at hg
      | cons r rs =>
        rw [hrec, List.dropLast_cons₂] at hg
        rcases List.mem_cons.mp hg with hgt | hgt
        · subst hgt
          have hne : List.drop c (a :: as) ≠ [] := by
            intro hdrop
            rw [hdrop] at hrec
            simp [chunksOf, chunksOfFuel_nil] at hrec
          have hlen : c < (a :: as).length := by
            by_contra hle
            push_neg at hle
            exact hne (List.drop_eq_nil_of_le hle)
          rw [List.length_take]
          omega
        · have := ih (List.drop c (a :: as))
            (by rw [List.length_drop]; simp only [List.length_cons] at h ⊢; omega)
          rw [hrec] at this
          exact this g hgt

theorem chunksOf_dropLast (c : Nat) (hc : c ≠ 0) (xs : List α) :
    ∀ g ∈ (chunksOf c xs).dropLast, g.length = c :=
  chunksOf_dropLast_aux c hc xs.length xs (Nat.le_refl _)

theorem mem_of_mem_chunksOf (c : Nat) (hc : c ≠ 0) (xs : List α)
    (g : List α) (hg : g ∈ chunksOf c xs) : ∀ a ∈ g, a ∈ xs := by
  intro a ha
  rw [← chunksOf_flatten c hc xs]
  exact List.mem_flatten.mpr ⟨g, hg, ha⟩

theorem dropLast_map {α β : Type} (f : α → β) (l : List α) :
    (l.map f).dropLast = l.dropLast.map f := by
  induction l with
  | nil => rfl
  | cons a l ih =>
    cases l with
    | nil => rfl
    | cons b l' =>
      show f a :: (List.map f (b :: l')).dropLast
          = f a :: List.map f ((b :: l').dropLast)
      rw [ih]

theorem mem_of_mem_dropLast {α : Type} (l : List α) (a : α) (h : a ∈ l.dropLast) :
    a ∈ l := by
  induction l with
  | nil => simp at h
  | cons x l ih =>
    cases l with
    | nil => simp at h
    | cons y l' =>
      rw [List.dropLast_cons₂] at h
      rcases List.mem_cons.mp h with h1 | h1
      · subst h1; exact List.mem_cons_self _ _
      · exact List.mem_cons_of_mem _ (ih h1)

/-- The words of every chunk group are exactly the group: the groups
consist of words of the original text, which are nonempty and
whitespace-free. -/
theorem splitWhitespaceL_of_group (text : Str) (c : Nat) (hc : c ≠ 0)
    (g : List Str) (hg : g ∈ chunksOf c (splitWhitespaceL text)) :
    splitWhitespaceL (joinSep [' '] g) = g := by
  apply splitWhitespaceL_joinSep
  intro w hw
  exact mem_splitWhitespaceL text w (mem_of_mem_chunksOf c hc _ g hg w hw)

/-- C1: for every chunk size `c > 0` and every content, `split_into_chunks`
produces exactly `⌈w/c⌉` chunks (`w` the number of whitespace-delimited
words of the content), every chunk except possibly the last holds exactly
`c` words, and the concatenation of all chunks' word sequences is the
original word sequence. -/
theorem c1_split_into_chunks_partition (text : Str) (c : Nat) (hc : 0 < c) :
    (split_into_chunks text c).length
        = ((splitWhitespaceL text).length + c - 1) / c
    ∧ (∀ s ∈ (split_into_chunks text c).dropLast,
        (splitWhitespaceL s).length = c)
    ∧ ((split_into_chunks text c).map splitWhitespaceL).flatten
        = splitWhitespaceL text := by
  have hc' : c ≠ 0 := Nat.pos_iff_ne_zero.mp hc
  refine ⟨?_, ?_, ?_⟩
  · rw [split_into_chunks, List.length_map, chunksOf_length c hc']
  · intro s hs
    rw [split_into_chunks, dropLast_map] at hs
    rcases List.mem_map.mp hs with ⟨g, hgmem, hgeq⟩
    have hgchunks : g ∈ chunksOf c (splitWhitespaceL text) :=
      mem_of_mem_dropLast _ _ hgmem
    rw [← hgeq, splitWhitespaceL_of_group text c hc' g hgchunks]
    exact chunksOf_dropLast c hc' _ g hgmem
  · rw [split_into_chunks, List.map_map]
    have hmap : (chunksOf c (splitWhitespaceL text)).map
          (splitWhitespaceL ∘ joinSep [' '])
        = (chunksOf c (splitWhitespaceL text)).map id := by
      apply List.map_congr_left
      intro g hg
      exact splitWhitespaceL_of_group text c hc' g hg
    rw [hmap, List.map_id, chunksOf_flatten c hc']

/-- Witness for C1 at a concrete input: content "a b c d e" with chunk
size 2. -/
theorem c1_witness :
    0 < 2
    ∧ ((split_into_chunks "a b c d e".data 2).length
          = ((splitWhitespaceL "a b c d e".data).length + 2 - 1) / 2
        ∧ (∀ s ∈ (split_into_chunks "a b c d e".data 2).dropLast,
            (splitWhitespaceL s).length = 2)
        ∧ ((split_into_chunks "a b c d e".data 2).map splitWhitespaceL).flatten
          = splitWhitespaceL "a b c d e".data) :=
  ⟨by decide, c1_split_into_chunks_partition "a b c d e".data 2 (by decide)⟩

/-! ### Properties of the line-range mapper -/

theorem lastBelow_of_le (bound : Nat) (lns : List Str) :
    ∀ (lc wc cur : Nat), bound ≤ wc → lastBelow bound lns lc wc cur = cur := by
  induction lns with
  | nil => intro lc wc cur _; rfl
  | cons line rest ih =>
    intro lc wc cur h
    simp only [lastBelow]
    rw [if_neg (by omega)]

theorem le_lastBelow (bound : Nat) (lns : List Str) :
    ∀ (lc wc cur : Nat), cur ≤ lc → cur ≤ lastBelow bound lns lc wc cur := by
  induction lns with
  | nil => intro lc wc cur h; exact Nat.le_refl _
  | cons line rest ih =>
    intro lc wc cur h
    simp only [lastBelow]
    by_cases hwc : wc < bound
    · rw [if_pos hwc]
      exact Nat.le_trans h (ih (lc + 1) _ lc (Nat.le_succ _))
    · rw [if_neg hwc]

theorem lastBelow_mono (b1 b2 : Nat) (hb : b1 ≤ b2) (lns : List Str) :
    ∀ (lc wc cur : Nat), cur ≤ lc →
      lastBelow b1 lns lc wc cur ≤ lastBelow b2 lns lc wc cur := by
  induction lns with
  | nil => intro lc wc cur _; exact Nat.le_refl _
  | cons line rest ih =>
    intro lc wc cur hcur
    simp only [lastBelow]
    by_cases h1 : wc < b1
    · rw [if_pos h1, if_pos (by omega)]
      exact ih (lc + 1) _ lc (Nat.le_succ _)
    · rw [if_neg h1]
      by_cases h2 : wc < b2
      · rw [if_pos h2]
        exact Nat.le_trans hcur (le_lastBelow b2 rest (lc + 1) _ lc (Nat.le_succ _))
      · rw [if_neg h2]

/-- The `get_line_range` loop in closed form: the start component stops
updating once the running word count reaches `sw`, the end component
once it reaches `ew`, and since the word count is non-decreasing the
break at `ew ≥ sw` discards no start update. -/
theorem getLineRangeLoop_eq (sw ew : Nat) (hswew : sw ≤ ew) (lns : List Str) :
    ∀ (lc wc sl el : Nat),
      getLineRangeLoop sw ew lns lc wc sl el
        = (lastBelow sw lns lc wc sl, lastBelow ew lns lc wc el + 1) := by
  induction lns with
  | nil => intro lc wc sl el; rfl
  | cons line rest ih =>
    intro lc wc sl el
    simp only [getLineRangeLoop, lastBelow]
    by_cases hew : wc < ew
    · rw [if_pos hew, ih]
      by_cases hsw : wc < sw
      · rw [if_pos hsw, if_pos hsw, if_pos hew]
      · rw [if_neg hsw, if_neg hsw, if_pos hew,
          lastBelow_of_le sw rest (lc + 1) _ sl (by omega)]
    · have hsw : ¬ wc < sw := by omega
      rw [if_neg hew, if_neg hew, if_neg hsw, if_neg hsw]

theorem get_line_range_eq (content : Str) (chunk_index chunk_size : Nat) :
    get_line_range content chunk_index chunk_size
      = (lastBelow (chunk_index * chunk_size) (linesL content) 0 0 0,
         lastBelow ((chunk_index + 1) * chunk_size) (linesL content) 0 0 0 + 1) :=
  getLineRangeLoop_eq _ _
    (Nat.mul_le_mul_right _ (Nat.le_succ _)) (linesL content) 0 0 0 0

/-- C5: `get_line_range` is monotonic in the chunk index: for a fixed
content and chunk size, both the returned `start_line` and the returned
`end_line` are non-decreasing in the chunk index. -/
theorem c5_get_line_range_monotonic (content : Str) (chunk_size i1 i2 : Nat)
    (h : i1 ≤ i2) :
    (get_line_range content i1 chunk_size).1
        ≤ (get_line_range content i2 chunk_size).1
    ∧ (get_line_range content i1 chunk_size).2
        ≤ (get_line_range content i2 chunk_size).2 := by
  rw [get_line_range_eq, get_line_range_eq]
  constructor
  · exact lastBelow_mono _ _ (Nat.mul_le_mul_right _ h) (linesL content)
      0 0 0 (Nat.le_refl _)
  · exact Nat.succ_le_succ
      (lastBelow_mono _ _ (Nat.mul_le_mul_right _ (Nat.succ_le_succ h))
        (linesL content) 0 0 0 (Nat.le_refl _))

/-- Witness for C5 at a concrete input: chunk indices 0 ≤ 2 on a small
two-line content. -/
theorem c5_witness :
    (0 : Nat) ≤ 2
    ∧ ((get_line_range "a\nb".data 0 1).1 ≤ (get_line_range "a\nb".data 2 1).1
        ∧ (get_line_range "a\nb".data 0 1).2 ≤ (get_line_range "a\nb".data 2 1).2) :=
  ⟨by decide, c5_get_line_range_monotonic "a\nb".data 1 0 2 (by decide)⟩

/-- C10: for every content (the empty one included) and every chunk
index and chunk size, the pair returned by `get_line_range` is a
nonempty range: `start_line < end_line`. -/
theorem c10_get_line_range_nonempty (content : Str) (chunk_index chunk_size : Nat) :
    (get_line_range content chunk_index chunk_size).1
      < (get_line_range content chunk_index chunk_size).2 := by
  rw [get_line_range_eq]
  exact Nat.lt_succ_of_le
    (lastBelow_mono _ _ (Nat.mul_le_mul_right _ (Nat.le_succ _))
      (linesL content) 0 0 0 (Nat.le_refl _))

/-- C6: there is a content string and a chunk index whose chunk lies
past the final line (its word interval starts at or beyond the total
word count) for which the returned `end_line` exceeds the content's
line count: the empty content has no lines, yet the reported range is
`(0, 1)`. -/
theorem c6_end_line_exceeds_line_count :
    (splitWhitespaceL ([] : Str)).length ≤ 0 * 256
    ∧ get_line_range ([] : Str) 0 256 = (0, 1)
    ∧ (linesL ([] : Str)).length < (get_line_range ([] : Str) 0 256).2 := by
  decide

/-! ### The batch sizer -/

/-- C4: the batch size is a pure step function of total physical memory
(in bytes); the core count never affects the result, and the memory
tiers are `< 4 GiB → 1`, `< 8 GiB → 4`, `< 16 GiB → 8`, `else → 16`,
which yields 1, 4, 8, 16 at 3, 5, 10, 32 GiB and 4, 8, 16 exactly at
the 4, 8, 16 GiB boundaries. -/
theorem c4_batch_size_step_function :
    (∀ m c1 c2, detect_system_resources m c1 = detect_system_resources m c2)
    ∧ (∀ m c, m < 4 * 1024 ^ 3 → detect_system_resources m c = 1)
    ∧ (∀ m c, 4 * 1024 ^ 3 ≤ m → m < 8 * 1024 ^ 3 →
        detect_system_resources m c = 4)
    ∧ (∀ m c, 8 * 1024 ^ 3 ≤ m → m < 16 * 1024 ^ 3 →
        detect_system_resources m c = 8)
    ∧ (∀ m c, 16 * 1024 ^ 3 ≤ m → detect_system_resources m c = 16) := by
  refine ⟨fun m c1 c2 => rfl, ?_, ?_, ?_, ?_⟩
  · intro m c h
    rw [detect_system_resources, if_pos (by omega)]
  · intro m c h1 h2
    rw [detect_system_resources, if_neg (by omega), if_pos (by omega)]
  · intro m c h1 h2
    rw [detect_system_resources, if_neg (by omega), if_neg (by omega),
      if_pos (by omega)]
  · intro m c h
    rw [detect_system_resources, if_neg (by omega), if_neg (by omega),
      if_neg (by omega)]

/-- Witness for C4 at the concrete memory sizes named by the claim:
3, 5, 10, 32 GiB and the boundaries 4, 8, 16 GiB (core count varied to
exercise its irrelevance). -/
theorem c4_witness :
    detect_system_resources (3 * 1024 ^ 3) 1 = detect_system_resources (3 * 1024 ^ 3) 64
    ∧ detect_system_resources (3 * 1024 ^ 3) 4 = 1
    ∧ detect_system_resources (5 * 1024 ^ 3) 4 = 4
    ∧ detect_system_resources (10 * 1024 ^ 3) 4 = 8
    ∧ detect_system_resources (32 * 1024 ^ 3) 4 = 16
    ∧ detect_system_resources (4 * 1024 ^ 3) 4 = 4
    ∧ detect_system_resources (8 * 1024 ^ 3) 4 = 8
    ∧ detect_system_resources (16 * 1024 ^ 3) 4 = 16 :=
  ⟨c4_batch_size_step_function.1 (3 * 1024 ^ 3) 1 64,
   c4_batch_size_step_function.2.1 _ 4 (by decide),
   c4_batch_size_step_function.2.2.1 _ 4 (by decide) (by decide),
   c4_batch_size_step_function.2.2.2.1 _ 4 (by decide) (by decide),
   c4_batch_size_step_function.2.2.2.2 _ 4 (by decide),
   c4_batch_size_step_function.2.2.1 _ 4 (by decide) (by decide),
   c4_batch_size_step_function.2.2.2.1 _ 4 (by decide) (by decide),
   c4_batch_size_step_function.2.2.2.2 _ 4 (by decide)⟩

/-! ### The index-interval slice and its drop/take implementation -/

theorem enumFrom_slice {α : Type} (s e : Nat) :
    ∀ (l : List α) (n : Nat),
      ((l.enumFrom n).filter (fun p => decide (s ≤ p.1 ∧ p.1 < e))).map Prod.snd
        = (l.drop (s - n)).take (e - max n s) := by
  intro l
  induction l with
  | nil => intro n; simp
  | cons x xs ih =>
    intro n
    simp only [List.enumFrom, List.filter_cons, decide_eq_true_eq]
    by_cases h1 : s ≤ n
    · by_cases h2 : n < e
      · rw [if_pos ⟨h1, h2⟩]
        simp only [List.map_cons]
        rw [ih (n + 1)]
        rw [show s - n = 0 by omega, show s - (n + 1) = 0 by omega,
          show max n s = n by omega, show max (n + 1) s = n + 1 by omega,
          show e - n = (e - (n + 1)) + 1 by omega]
        simp [List.take_succ_cons]
      · rw [if_neg (by omega)]
        rw [ih (n + 1)]
        rw [show s - n = 0 by omega, show s - (n + 1) = 0 by omega,
          show max n s = n by omega, show max (n + 1) s = n + 1 by omega,
          show e - n = 0 by omega, show e - (n + 1) = 0 by omega]
        simp
    · rw [if_neg (by omega)]
      rw [ih (n + 1)]
      rw [show max n s = s by omega, show max (n + 1) s = s by omega,
        show s - n = (s - (n + 1)) + 1 by omega]
      simp [List.drop_succ_cons]

/-- The drop/take slice used by the code equals the elements with
indices in the half-open interval `[s, e)`. -/
theorem idxSlice_eq_drop_take {α : Type} (l : List α) (s e : Nat) :
    (l.drop s).take (e - s) = idxSlice l s e := by
  rw [idxSlice, show l.enum = l.enumFrom 0 from rfl, enumFrom_slice s e l 0]
  rw [show s - 0 = s by omega, show max 0 s = s by omega]

/-! ### The rerank input resolver -/

/-- C2 (amended): for every rerank record whose metadata carries a
string `file_path` and `u64` fields `start_line` and `end_line` with
`start_line ≤ end_line`, and whose file is readable, `get_full_content`
returns exactly the file's lines with indices in the half-open interval
`[start_line, end_line)`, joined by a single newline.  (The amendment
adds `start_line ≤ end_line`: otherwise the unchecked `usize`
subtraction panics, see `c2_counterexample` and C9.) -/
theorem c2_get_full_content_slice (fs : Fs) (item : Json) (mfields : JsonFields)
    (fp : String) (slv elv : Json) (s e : Nat) (content : Str)
    (hm : asObject (jindex item "metadata") = some mfields)
    (hfp : jfLookup "file_path" mfields = some (.str fp))
    (hslv : jfLookup "start_line" mfields = some slv)
    (hs : asU64 slv = some s)
    (helv : jfLookup "end_line" mfields = some elv)
    (he : asU64 elv = some e)
    (hfile : assocLookup fp fs = some content)
    (hse : s ≤ e) :
    get_full_content fs item
      = .ok (joinSep ['\n'] (idxSlice (linesL content) s e)) := by
  simp only [get_full_content, hm, hfp, hslv, hs, helv, he, hfile, asStr]
  rw [if_neg (by omega), idxSlice_eq_drop_take]

/-- C2 counterexample: a record whose metadata is complete and whose
file is readable but has `end_line = 0 < 1 = start_line`.  The claim
(quantified over all such records) predicts the empty line slice
`[1, 0)`, i.e. `ok ""`; the code instead hits the unchecked `usize`
underflow and panics. -/
theorem c2_counterexample :
    get_full_content [("f.txt", "l0\nl1\nl2".data)] (mkRecord "f.txt" 1 0)
      = .panicked
    ∧ (Outcome.panicked : Outcome Str)
        ≠ .ok (joinSep ['\n'] (idxSlice (linesL "l0\nl1\nl2".data) 1 0)) := by
  decide

/-- Witness for C2 (amended) at the spec's own concrete example: a
3-line file with `start_line = 0`, `end_line = 2` resolves to lines 0
and 1 joined by a newline, line 2 excluded. -/
theorem c2_witness :
    (0 : Nat) ≤ 2
    ∧ get_full_content [("f.txt", "l0\nl1\nl2".data)] (mkRecord "f.txt" 0 2)
        = .ok (joinSep ['\n'] (idxSlice (linesL "l0\nl1\nl2".data) 0 2))
    ∧ joinSep ['\n'] (idxSlice (linesL "l0\nl1\nl2".data) 0 2) = "l0\nl1".data :=
  ⟨by decide,
   c2_get_full_content_slice [("f.txt", "l0\nl1\nl2".data)] (mkRecord "f.txt" 0 2)
     _ "f.txt" (.num 0) (.num 2) 0 2 "l0\nl1\nl2".data
     rfl rfl rfl (by decide) rfl (by decide) (by decide) (by decide),
   by decide⟩

/-- C9: with complete metadata, a readable file and
`end_line < start_line`, the unchecked `usize` subtraction
`end_line - start_line` underflows: `get_full_content` (rerank) reaches
the panic — not a propagated error — and `get_file_metadata` (text
embedding) panics likewise. -/
theorem c9_underflow_panic (fs : Fs) (item : Json) (mfields : JsonFields)
    (fp : String) (slv elv : Json) (s e : Nat) (content : Str)
    (hm : asObject (jindex item "metadata") = some mfields)
    (hfp : jfLookup "file_path" mfields = some (.str fp))
    (hslv : jfLookup "start_line" mfields = some slv)
    (hs : asU64 slv = some s)
    (helv : jfLookup "end_line" mfields = some elv)
    (he : asU64 elv = some e)
    (hfile : assocLookup fp fs = some content)
    (hlt : e < s) :
    get_full_content fs item = .panicked
    ∧ isPropagatedErrB (get_full_content fs item) = false
    ∧ getFileMetadata fs fp 0 s e = none := by
  have hval : get_full_content fs item = .panicked := by
    simp only [get_full_content, hm, hfp, hslv, hs, helv, he, hfile, asStr]
    rw [if_pos hlt]
  refine ⟨hval, by rw [hval]; rfl, ?_⟩
  simp [getFileMetadata, hlt]

/-- Witness for C9 at a concrete input: `start_line = 1`,
`end_line = 0` on a readable one-line file. -/
theorem c9_witness :
    (0 : Nat) < 1
    ∧ (get_full_content [("f.txt", "x".data)] (mkRecord "f.txt" 1 0) = .panicked
       ∧ isPropagatedErrB
           (get_full_content [("f.txt", "x".data)] (mkRecord "f.txt" 1 0)) = false
       ∧ getFileMetadata [("f.txt", "x".data)] "f.txt" 0 1 0 = none) :=
  ⟨by decide,
   c9_underflow_panic [("f.txt", "x".data)] (mkRecord "f.txt" 1 0)
     _ "f.txt" (.num 1) (.num 0) 1 0 "x".data
     rfl rfl rfl (by decide) rfl (by decide) (by decide) (by decide)⟩

/-! ### The rerank run: a failing record aborts before any output -/

theorem collectDocs_not_ok (fs : Fs) :
    ∀ (input : List Json) (item : Json), item ∈ input →
      isOkB (get_full_content fs item) = false →
      isOkB (collectDocs fs input) = false := by
  intro input
  induction input with
  | nil => intro item h _; simp at h
  | cons hd tl ih =>
    intro item hmem hfail
    rcases List.mem_cons.mp hmem with h | h
    · subst h
      simp only [collectDocs]
      cases hgc : get_full_content fs item with
      | ok d => rw [hgc] at hfail; simp [isOkB] at hfail
      | error e => rfl
      | panicked => rfl
    · simp only [collectDocs]
      cases hgc : get_full_content fs hd with
      | ok d =>
        have hrec := ih item h hfail
        cases hcd : collectDocs fs tl with
        | ok ds => rw [hcd] at hrec; simp [isOkB] at hrec
        | error e => rfl
        | panicked => rfl
      | error e => rfl
      | panicked => rfl

/-- C3 (amended): whenever some record of the rerank input stream fails
to resolve (absent metadata, missing or mistyped subfield, or an
unreadable file), the whole run aborts and no output line is written
for any record of the stream — those before and after the faulty one
included.  (Amendment: the abort is a propagated error for absent
metadata, a mistyped subfield or an unreadable file, but a panic — not
a propagated error — for an absent subfield key, which trips the
`serde_json` map index; see `c3_counterexample`.) -/
theorem c3_failing_record_aborts_run (fs : Fs) (rr : List Str → List (Nat × Json))
    (input : List Json) (item : Json)
    (hmem : item ∈ input)
    (hfail : isOkB (get_full_content fs item) = false) :
    isOkB (rerankMain fs rr input).1 = false
    ∧ (rerankMain fs rr input).2 = [] := by
  have hc := collectDocs_not_ok fs input item hmem hfail
  cases hcd : collectDocs fs input with
  | ok ds => rw [hcd] at hc; simp [isOkB] at hc
  | error e => simp [rerankMain, hcd, isOkB]
  | panicked => simp [rerankMain, hcd, isOkB]

/-- C3 counterexample: a stream of one record whose metadata lacks the
`start_line` key (file path present, file readable).  The run aborts
with no output, but by the `serde_json` map-index panic — the outcome
is not a propagated error, contrary to the claim. -/
theorem c3_counterexample :
    (rerankMain [("f.txt", "x".data)] (fun _ => [])
        [Json.obj (.cons "metadata"
          (.obj (.cons "file_path" (.str "f.txt")
            (.cons "end_line" (.num 2) .nil))) .nil)]).1
      = .panicked
    ∧ isPropagatedErrB
        (rerankMain [("f.txt", "x".data)] (fun _ => [])
          [Json.obj (.cons "metadata"
            (.obj (.cons "file_path" (.str "f.txt")
              (.cons "end_line" (.num 2) .nil))) .nil)]).1 = false
    ∧ (rerankMain [("f.txt", "x".data)] (fun _ => [])
        [Json.obj (.cons "metadata"
          (.obj (.cons "file_path" (.str "f.txt")
            (.cons "end_line" (.num 2) .nil))) .nil)]).2 = [] := by
  decide

/-- Witness for C3 (amended): a single record with no metadata object
makes the run abort with no output line written. -/
theorem c3_witness :
    (Json.obj .nil) ∈ [Json.obj .nil]
    ∧ isOkB (get_full_content [] (Json.obj .nil)) = false
    ∧ (isOkB (rerankMain [] (fun _ => []) [Json.obj .nil]).1 = false
       ∧ (rerankMain [] (fun _ => []) [Json.obj .nil]).2 = []) :=
  ⟨List.mem_singleton.mpr rfl, by decide,
   c3_failing_record_aborts_run [] (fun _ => []) [Json.obj .nil] (Json.obj .nil)
     (List.mem_singleton.mpr rfl) (by decide)⟩

/-! ### The text-embedding metadata preview -/

/-- C7 (amended): for every file chunk with `start_line ≤ end_line`,
the emitted `content_preview` equals the first 100 characters of the
chunk's line-range slice of the re-read file — the file's lines with
indices in `[start_line, end_line)` joined by newline, not the chunk's
words rejoined with single spaces — with the literal three-character
ellipsis marker appended unconditionally; the preview is therefore at
most 103 characters long. -/
theorem c7_content_preview (fs : Fs) (path : String) (ci s e : Nat) (hse : s ≤ e) :
    (getFileMetadata fs path ci s e).map FileMetadata.content_preview
      = some ((joinSep ['\n']
          (idxSlice (linesL ((assocLookup path fs).getD [])) s e)).take 100
          ++ ['.', '.', '.'])
    ∧ ((joinSep ['\n']
          (idxSlice (linesL ((assocLookup path fs).getD [])) s e)).take 100
          ++ ['.', '.', '.']).length ≤ 103 := by
  have hnot : ¬ e < s := by omega
  constructor
  · rw [getFileMetadata, if_neg hnot, idxSlice_eq_drop_take]
    rfl
  · rw [List.length_append]
    have h := List.length_take_le 100
      (joinSep ['\n'] (idxSlice (linesL ((assocLookup path fs).getD [])) s e))
    simp only [List.length_cons, List.length_nil]
    omega

/-- C7 counterexample: the two-line, two-word file "a\nb", chunk 0 with
chunk size 256.  The emitted line range is `[0, 2)` and the code's
preview is "a\nb..." (the line slice joined by newline, truncated, plus
the marker), while the claim predicts the first 100 characters of the
reconstructed chunk text "a b" (the chunk's words rejoined with single
spaces), i.e. "a b...". -/
theorem c7_counterexample :
    get_line_range "a\nb".data 0 256 = (0, 2)
    ∧ split_into_chunks "a\nb".data 256 = ["a b".data]
    ∧ (getFileMetadata [("f.txt", "a\nb".data)] "f.txt" 0 0 2).map
        FileMetadata.content_preview = some "a\nb...".data
    ∧ ("a\nb...".data : Str) ≠ "a b".data.take 100 ++ ['.', '.', '.'] := by
  decide

/-- Witness for C7 (amended) at a concrete input: the file "a\nb" with
line range `[0, 2)`. -/
theorem c7_witness :
    (0 : Nat) ≤ 2
    ∧ ((getFileMetadata [("f.txt", "a\nb".data)] "f.txt" 0 0 2).map
          FileMetadata.content_preview
        = some ((joinSep ['\n']
            (idxSlice (linesL ((assocLookup "f.txt"
              [("f.txt", "a\nb".data)]).getD [])) 0 2)).take 100
            ++ ['.', '.', '.'])
       ∧ ((joinSep ['\n']
            (idxSlice (linesL ((assocLookup "f.txt"
              [("f.txt", "a\nb".data)]).getD [])) 0 2)).take 100
            ++ ['.', '.', '.']).length ≤ 103) :=
  ⟨by decide, c7_content_preview [("f.txt", "a\nb".data)] "f.txt" 0 0 2 (by decide)⟩

/-! ### The rerank output frame -/

theorem jfLookup_jfUpdate_self (fields : JsonFields) (k : String) (v : Json) :
    jfLookup k (jfUpdate fields k v) = some v := by
  match fields with
  | .nil => simp [jfUpdate, jfLookup]
  | .cons k0 v0 rest =>
    by_cases h : k0 = k
    · subst h; simp [jfUpdate, jfLookup]
    · simp [jfUpdate, jfLookup, h, jfLookup_jfUpdate_self rest k v]

theorem jfLookup_jfUpdate_ne (fields : JsonFields) (k k' : String) (v : Json)
    (hne : k' ≠ k) :
    jfLookup k' (jfUpdate fields k v) = jfLookup k' fields := by
  match fields with
  | .nil =>
    have h : k ≠ k' := fun hh => hne hh.symm
    simp [jfUpdate, jfLookup, h]
  | .cons k0 v0 rest =>
    by_cases h : k0 = k
    · subst h
      have h2 : k0 ≠ k' := fun hh => hne hh.symm
      simp [jfUpdate, jfLookup, h2]
    · by_cases h2 : k0 = k'
      · simp [jfUpdate, jfLookup, h, h2, hne]
      · simp [jfUpdate, jfLookup, h, h2, jfLookup_jfUpdate_ne rest k k' v hne]

theorem jfKeys_jfUpdate (fields : JsonFields) (k : String) (v : Json) :
    jfKeys (jfUpdate fields k v)
      = if jfLookup k fields = none then jfKeys fields ++ [k]
        else jfKeys fields := by
  match fields with
  | .nil => simp [jfUpdate, jfKeys, jfLookup]
  | .cons k0 v0 rest =>
    by_cases h : k0 = k
    · subst h; simp [jfUpdate, jfKeys, jfLookup]
    · simp only [jfUpdate, jfKeys, jfLookup, h, if_false, jfKeys_jfUpdate rest k v]
      by_cases h2 : jfLookup k rest = none <;> simp [h2]

/-- C8 (amended): every emitted rerank record is its input record with
the `rerank_score` field set to the relevance score: it agrees with the
input on every other field, and when the input has no `rerank_score`
field of its own the output's keys are exactly the input's keys plus
`rerank_score` — but a pre-existing `rerank_score` field is overwritten
rather than preserved, see `c8_counterexample`. -/
theorem c8_emitted_record_frame (fields : JsonFields) (score : Json) :
    asObject (emitRecord fields score)
        = some (jfUpdate fields "rerank_score" score)
    ∧ (∀ k, k ≠ "rerank_score" →
        jfLookup k (jfUpdate fields "rerank_score" score) = jfLookup k fields)
    ∧ jfLookup "rerank_score" (jfUpdate fields "rerank_score" score) = some score
    ∧ (jfLookup "rerank_score" fields = none →
        jfKeys (jfUpdate fields "rerank_score" score)
          = jfKeys fields ++ ["rerank_score"]) := by
  refine ⟨rfl, ?_, jfLookup_jfUpdate_self fields _ score, ?_⟩
  · intro k hk
    exact jfLookup_jfUpdate_ne fields _ k score hk
  · intro hnone
    rw [jfKeys_jfUpdate, if_pos hnone]

/-- C8 counterexample: an input record that already carries a
`rerank_score` field (value 7).  It resolves fine and is emitted, but
the emitted record holds the new score 0 in that field: an original
field was altered, contrary to the claim. -/
theorem c8_counterexample :
    (rerankMain [("f.txt", "x".data)] (fun _ => [(0, Json.num 0)])
        [Json.obj (.cons "metadata"
          (.obj (.cons "file_path" (.str "f.txt")
            (.cons "start_line" (.num 0)
              (.cons "end_line" (.num 1) .nil))))
          (.cons "rerank_score" (.num 7) .nil))]).2
      = [Json.obj (.cons "metadata"
          (.obj (.cons "file_path" (.str "f.txt")
            (.cons "start_line" (.num 0)
              (.cons "end_line" (.num 1) .nil))))
          (.cons "rerank_score" (.num 0) .nil))]
    ∧ jindex (Json.obj (.cons "metadata"
          (.obj (.cons "file_path" (.str "f.txt")
            (.cons "start_line" (.num 0)
              (.cons "end_line" (.num 1) .nil))))
          (.cons "rerank_score" (.num 7) .nil))) "rerank_score"
        = Json.num 7
    ∧ jindex (Json.obj (.cons "metadata"
          (.obj (.cons "file_path" (.str "f.txt")
            (.cons "start_line" (.num 0)
              (.cons "end_line" (.num 1) .nil))))
          (.cons "rerank_score" (.num 0) .nil))) "rerank_score"
        = Json.num 0
    ∧ Json.num 0 ≠ Json.num 7 := by
  decide

/-- Witness for C8 (amended) at a concrete record with a single
`metadata` field and score 5. -/
theorem c8_witness :
    ("metadata" : String) ≠ "rerank_score"
    ∧ jfLookup "metadata"
        (jfUpdate (.cons "metadata" Json.null .nil) "rerank_score" (Json.num 5))
        = jfLookup "metadata" (.cons "metadata" Json.null .nil)
    ∧ jfLookup "rerank_score"
        (jfUpdate (.cons "metadata" Json.null .nil) "rerank_score" (Json.num 5))
        = some (Json.num 5)
    ∧ jfKeys (jfUpdate (.cons "metadata" Json.null .nil) "rerank_score" (Json.num 5))
        = jfKeys (.cons "metadata" Json.null .nil) ++ ["rerank_score"] :=
  ⟨by decide,
   (c8_emitted_record_frame (.cons "metadata" Json.null .nil) (Json.num 5)).2.1
     "metadata" (by decide),
   (c8_emitted_record_frame (.cons "metadata" Json.null .nil) (Json.num 5)).2.2.1,
   (c8_emitted_record_frame (.cons "metadata" Json.null .nil) (Json.num 5)).2.2.2
     (by decide)⟩

end Vekta
